import Mathlib

/-!
Verification of the hierarchical design kernel of a layout-design tool
(cells, instances/references, transforms, ports, cache/registry,
connection engine, port naming, sequence interpreter).

The kernel itself ships outside the analysed tree (the tree holds its
notebooks and CI configuration), so every operation here is modelled from
the specification text and checked against the behaviour the notebook
exercises.  Trigonometry is abstracted: a parameter dir maps an angle in
degrees to its unit direction vector (cos, sin); theorems that need
properties of cosine/sine state them as hypotheses on dir.
-/

namespace GdsKernel

/-- Modelled from the spec: a 2-D point/vector with exact rational
coordinates (the kernel's coordinates, with float rounding out of scope). -/
structure Vec2 where
  x : ℚ
  y : ℚ
deriving DecidableEq, Repr

instance : Add Vec2 := ⟨fun a b => ⟨a.x + b.x, a.y + b.y⟩⟩

instance : Zero Vec2 := ⟨⟨0, 0⟩⟩

/-- Rotation (complex-style multiplication) of a point by a unit direction
vector u = (cos θ, sin θ). -/
def rotVec (u p : Vec2) : Vec2 :=
  ⟨u.x * p.x - u.y * p.y, u.y * p.x + u.x * p.y⟩

/-- Reflection across the x-axis when the mirror flag is set. -/
def mirVec (m : Bool) (p : Vec2) : Vec2 :=
  if m then ⟨p.x, -p.y⟩ else p

/-- Modelled from the spec: the immutable 2-D affine transform value
(translation dx,dy; rotation angle in degrees; mirror flag; scale fixed
at 1). -/
structure Transform where
  dx : ℚ
  dy : ℚ
  angle : ℚ
  mirror : Bool
deriving DecidableEq, Repr

/-- The identity transform. -/
def idT : Transform := ⟨0, 0, 0, false⟩

/-- Modelled from the spec: applying a transform to a point — mirror first,
then rotation, then translation.  dir interprets the stored angle as a unit
direction vector. -/
def Transform.apply (dir : ℚ → Vec2) (t : Transform) (p : Vec2) : Vec2 :=
  ⟨(rotVec (dir t.angle) (mirVec t.mirror p)).x + t.dx,
   (rotVec (dir t.angle) (mirVec t.mirror p)).y + t.dy⟩

/-- Modelled from the spec: Instance.move composes a translation onto the
existing transform (translation acts last, in the parent frame). -/
def Transform.move (t : Transform) (v : Vec2) : Transform :=
  { t with dx := t.dx + v.x, dy := t.dy + v.y }

/-- Modelled from the spec: Instance.rotate about the default center (the
instance's own reference origin) composes a rotation onto the existing
transform: the stored angle grows by a and the translation part is rotated. -/
def Transform.rotate (dir : ℚ → Vec2) (a : ℚ) (t : Transform) : Transform :=
  { t with
    angle := t.angle + a
    dx := (rotVec (dir a) ⟨t.dx, t.dy⟩).x
    dy := (rotVec (dir a) ⟨t.dx, t.dy⟩).y }

/-- Normalisation of an angle in degrees into the interval [0, 360). -/
def normDeg (a : ℚ) : ℚ := a - 360 * (⌊a / 360⌋ : ℤ)

/-- Modelled from the spec: a named, typed, oriented connection point on a
Cell (position in the owning Cell's local frame, orientation in degrees,
positive width, layer, registrable type category). -/
structure Port where
  name : String
  pos : Vec2
  orientation : ℚ
  width : ℚ
  layer : ℤ × ℤ
  ptype : String
deriving DecidableEq, Repr

/-- A port seen through a transform: position is mapped by the transform and
the orientation is rotated (and flipped by a mirror), normalised mod 360. -/
def transformPort (dir : ℚ → Vec2) (t : Transform) (p : Port) : Port :=
  { p with
    pos := t.apply dir p.pos
    orientation := normDeg (if t.mirror then t.angle - p.orientation else t.angle + p.orientation) }

/-- Modelled from the spec: the recoverable errors of the connection engine. -/
inductive ConnErr where
  | portNotFound
  | widthMismatch
deriving DecidableEq, Repr

/-- Modelled from the spec: the Connection Engine on two resolved ports.
It computes the unique rigid transform placing port A at B's position with
orientation rotated 180 degrees relative to B, failing with a width
mismatch unless the widths agree or the override is set. -/
def connectT (dir : ℚ → Vec2) (A B : Port) (allow : Bool) : Except ConnErr Transform :=
  if A.width = B.width ∨ allow = true then
    let a := normDeg (B.orientation + 180 - A.orientation)
    let r := rotVec (dir a) A.pos
    .ok ⟨B.pos.x - r.x, B.pos.y - r.y, a, false⟩
  else .error .widthMismatch

/-- Modelled from the spec: connection after name resolution — a missing
port on either side fails with a port-not-found error. -/
def connectNamed (dir : ℚ → Vec2) (pA pB : Option Port) (allow : Bool) :
    Except ConnErr Transform :=
  match pA, pB with
  | some A, some B => connectT dir A B allow
  | _, _ => .error .portNotFound

/-- Modelled from the spec: a polygon on a layer, given by its vertex list. -/
structure Polygon where
  layer : ℤ × ℤ
  pts : List Vec2
deriving DecidableEq, Repr

/-- Modelled from the spec: the array (lattice) parameters of an Instance;
a plain instance is the degenerate 1 x 1 lattice with zero pitches. -/
structure ArrayParams where
  rows : Nat
  columns : Nat
  rowPitch : Vec2
  columnPitch : Vec2
deriving DecidableEq, Repr

/-- The 1 x 1 lattice of a plain (non-array) instance. -/
def unitArr : ArrayParams := ⟨1, 1, 0, 0⟩

/-- Modelled from the spec: an Instance — a placement of one Cell inside
another.  The target is a shared reference, modelled as an index into the
arena of Cells; object identity is index equality. -/
structure Inst where
  target : Nat
  trans : Transform
  arr : ArrayParams
deriving DecidableEq, Repr

/-- Modelled from the spec: a Cell — a named geometric definition owning
polygons, ports (name-keyed, insertion ordered) and an ordered list of
Instances. -/
structure Cell where
  name : String
  polys : List Polygon
  ports : List Port
  insts : List Inst
deriving DecidableEq, Repr

/-- Modelled from the spec: the shared heap of Cells.  Instances hold
indices into this arena, so many Instances alias one Cell and a mutation of
the Cell at an index is seen through every Instance targeting it. -/
structure World where
  cells : List Cell
deriving DecidableEq, Repr

/-- Ordered update of one list element, leaving every other element alone. -/
def listModify (f : α → α) : Nat → List α → List α
  | _, [] => []
  | 0, a :: t => f a :: t
  | n + 1, a :: t => a :: listModify f n t

/-- Update the Cell stored at one arena index. -/
def updateCellW (w : World) (ci : Nat) (g : Cell → Cell) : World :=
  ⟨listModify g ci w.cells⟩

/-- Update one Instance of the Cell at one arena index. -/
def updateInstW (w : World) (ci ii : Nat) (f : Inst → Inst) : World :=
  updateCellW w ci fun c => { c with insts := listModify f ii c.insts }

/-- Modelled from the spec: Cell.addPolygon — appends a polygon to the
Cell's own geometry. -/
def addPolygonW (w : World) (ci : Nat) (pg : Polygon) : World :=
  updateCellW w ci fun c => { c with polys := c.polys ++ [pg] }

/-- Modelled from the spec: Cell.addReference / add_ref — appends to the
parent a fresh Instance of the target with the identity transform, and
returns the parent state together with the index identifying the new
Instance. -/
def addRefW (w : World) (parent target : Nat) (arr : ArrayParams) : World × Nat :=
  (updateCellW w parent fun c => { c with insts := c.insts ++ [⟨target, idT, arr⟩] },
   match w.cells[parent]? with
   | some c => c.insts.length
   | none => 0)

/-- Modelled from the spec and notebook: the shift-left shorthand operator
on components, building the same plain reference as add_ref does. -/
def lshiftW (w : World) (parent target : Nat) : World × Nat :=
  (updateCellW w parent fun c =>
      { c with insts := c.insts ++ [{ target := target, trans := idT, arr := unitArr }] },
   match w.cells[parent]? with
   | some c => c.insts.length
   | none => 0)

/-- Association-list lookup with decidable key equality. -/
def lookupC [DecidableEq κ] (k : κ) : List (κ × β) → Option β
  | [] => none
  | (k2, v) :: t => if k = k2 then some v else lookupC k t

/-- Modelled from the spec: the process-wide Cache/Registry — a table from
canonical build key to the arena index of the built Cell, over the shared
Cell arena. -/
structure Registry where
  world : World
  cache : List ((String × List (String × ℤ)) × Nat)

/-- Modelled from the spec: canonicalisation of a build's arguments —
numeric values normalised to a fixed precision and named arguments brought
into a canonical order. -/
def canonArgs (args : List (String × ℚ)) : List (String × ℤ) :=
  (args.map fun a => (a.1, round (a.2 * 1000))).mergeSort fun a b => decide (a.1 ≤ b.1)

/-- Modelled from the spec: the canonical build key derived from the build
identity and its normalised arguments. -/
def canonKey (f : String) (args : List (String × ℚ)) : String × List (String × ℤ) :=
  (f, canonArgs args)

/-- Modelled from the spec: getOrBuild — return the cached Cell for the
canonical key if present (the same shared object, unchanged), otherwise run
the build, register the result under the key, and return it. -/
def getOrBuild (f : String) (args : List (String × ℚ))
    (build : Registry → Registry × Nat) (R : Registry) : Registry × Nat :=
  match lookupC (canonKey f args) R.cache with
  | some i => (R, i)
  | none =>
    let r := build R
    ({ r.1 with cache := (canonKey f args, r.2) :: r.1.cache }, r.2)

/-- Name resolution of a port on a Cell. -/
def findPort (c : Cell) (n : String) : Option Port :=
  c.ports.find? fun p => p.name == n

/-- Modelled from the spec: Instance.connect on the shared world — resolves
the named port on the instance's target, runs the Connection Engine, and on
success replaces only that instance's transform. -/
def connectW (dir : ℚ → Vec2) (w : World) (ci ii : Nat) (pname : String)
    (other : Port) (allow : Bool) : Except ConnErr World :=
  match w.cells[ci]? with
  | none => .error .portNotFound
  | some c =>
    match c.insts[ii]? with
    | none => .error .portNotFound
    | some i0 =>
      match w.cells[i0.target]? with
      | none => .error .portNotFound
      | some tc =>
        match findPort tc pname with
        | none => .error .portNotFound
        | some A =>
          match connectT dir A other allow with
          | .error e => .error e
          | .ok t => .ok (updateInstW w ci ii fun j => { j with trans := t })

/-- Modelled from the spec: Instance.move on the shared world; it returns
the identity of the very instance it acted on (method chaining). -/
def moveInstR (w : World) (ci ii : Nat) (v : Vec2) : World × Nat × Nat :=
  (updateInstW w ci ii fun i => { i with trans := i.trans.move v }, ci, ii)

/-- Modelled from the spec: Instance.rotate (about the default center) on
the shared world; it returns the identity of the very instance it acted on. -/
def rotateInstR (dir : ℚ → Vec2) (w : World) (ci ii : Nat) (a : ℚ) : World × Nat × Nat :=
  (updateInstW w ci ii fun i => { i with trans := Transform.rotate dir a i.trans }, ci, ii)

/-- An axis-aligned bounding rectangle. -/
structure Rect where
  lox : ℚ
  loy : ℚ
  hix : ℚ
  hiy : ℚ
deriving DecidableEq, Repr

/-- Membership of a point in a rectangle. -/
def memRect (p : Vec2) (r : Rect) : Prop :=
  r.lox ≤ p.x ∧ p.x ≤ r.hix ∧ r.loy ≤ p.y ∧ p.y ≤ r.hiy

instance (p : Vec2) (r : Rect) : Decidable (memRect p r) := by
  unfold memRect; infer_instance

/-- Smallest rectangle containing two rectangles. -/
def rjoin (a b : Rect) : Rect :=
  ⟨min a.lox b.lox, min a.loy b.loy, max a.hix b.hix, max a.hiy b.hiy⟩

/-- Bounding-box union where none stands for the empty region. -/
def ojoin : Option Rect → Option Rect → Option Rect
  | none, b => b
  | some a, none => some a
  | some a, some b => some (rjoin a b)

/-- Union of a list of optional bounding boxes. -/
def unionAll (l : List (Option Rect)) : Option Rect :=
  l.foldr ojoin none

/-- Membership of a point in an optional rectangle (the empty region has
no members). -/
def memO (p : Vec2) (b : Option Rect) : Prop :=
  ∃ r, b = some r ∧ memRect p r

/-- Bounding box of a point list. -/
def bboxPts (pts : List Vec2) : Option Rect :=
  unionAll (pts.map fun p => some ⟨p.x, p.y, p.x, p.y⟩)

/-- The bounding box of four points. -/
def rbox4 (p1 p2 p3 p4 : Vec2) : Rect :=
  ⟨min p1.x (min p2.x (min p3.x p4.x)), min p1.y (min p2.y (min p3.y p4.y)),
   max p1.x (max p2.x (max p3.x p4.x)), max p1.y (max p2.y (max p3.y p4.y))⟩

/-- Bounding box of a rectangle pushed through an affine transform: the
bounding box of the images of its four corners. -/
def transformRectO (dir : ℚ → Vec2) (t : Transform) : Option Rect → Option Rect
  | none => none
  | some r => some (rbox4
      (t.apply dir ⟨r.lox, r.loy⟩) (t.apply dir ⟨r.lox, r.hiy⟩)
      (t.apply dir ⟨r.hix, r.loy⟩) (t.apply dir ⟨r.hix, r.hiy⟩))

/-- Modelled from the spec: the lattice offset of array placement
(row, col), row times row pitch plus col times column pitch. -/
def latticeOffset (a : ArrayParams) (row col : Nat) : Vec2 :=
  ⟨row * a.rowPitch.x + col * a.columnPitch.x,
   row * a.rowPitch.y + col * a.columnPitch.y⟩

/-- Modelled from the spec: the effective transform of array placement
(row, col) — the base transform composed with the lattice translation
(the translation acting in the parent frame, after the base transform,
so that a point at the target origin lands at base.apply(origin) plus the
lattice offset). -/
def effTrans (i : Inst) (row col : Nat) : Transform :=
  i.trans.move (latticeOffset i.arr row col)

/-- The ordered list of lattice placements of an instance. -/
def latticePlacements (a : ArrayParams) : List (Nat × Nat) :=
  (List.range a.rows).flatMap fun row =>
    (List.range a.columns).map fun col => (row, col)

/-- Bounding box of one instance given the bounding box of its target:
union over all lattice placements of the transformed target box. -/
def instBBoxFrom (dir : ℚ → Vec2) (i : Inst) (tb : Option Rect) : Option Rect :=
  unionAll ((latticePlacements i.arr).map fun rc =>
    transformRectO dir (effTrans i rc.1 rc.2) tb)

/-- Modelled from the spec: boundingBox(cell) — the union of the boxes of
the Cell's own polygons and, for every Instance, the target's box under the
Instance's effective transform, all lattice placements included.  The fuel
argument bounds the recursion depth (the spec's acyclicity invariant
guarantees termination; an out-of-fuel branch reports the empty region). -/
def cellBBox (dir : ℚ → Vec2) (cells : List Cell) : Nat → Nat → Option Rect
  | 0, _ => none
  | fuel + 1, ci =>
    match cells[ci]? with
    | none => none
    | some c =>
      ojoin (unionAll (c.polys.map fun pg => bboxPts pg.pts))
            (unionAll (c.insts.map fun i =>
              instBBoxFrom dir i (cellBBox dir cells fuel i.target)))

/-- Modelled from the spec: the ports exposed by an array instance — one
addressable entry per target port per lattice cell, keyed by
(port name, row, col), carrying the port as seen through the effective
transform of that placement. -/
def exposedPorts (dir : ℚ → Vec2) (cells : List Cell) (i : Inst) :
    List ((String × Nat × Nat) × Port) :=
  match cells[i.target]? with
  | none => []
  | some t =>
    (List.range i.arr.rows).flatMap fun row =>
      (List.range i.arr.columns).flatMap fun col =>
        t.ports.map fun p =>
          ((p.name, row, col), transformPort dir (effTrans i row col) p)

/-- Keyed lookup of an exposed array port by (name, row, col). -/
def exposedLookup (dir : ℚ → Vec2) (cells : List Cell) (i : Inst)
    (key : String × Nat × Nat) : Option Port :=
  lookupC key (exposedPorts dir cells i)

/-- Modelled from the spec: errors of the build interpreter — the cyclic
build error of the registry, plus an out-of-fuel marker that is an artifact
of the bounded model (it never occurs with enough fuel). -/
inductive BuildErr where
  | cyclic
  | outOfFuel
deriving DecidableEq, Repr

/-- Modelled from the spec: the registry state for cycle detection — the
cache of finished builds, the per-build set of in-progress keys, and a
counter allocating Cell identities. -/
structure RState where
  cache : List (String × Nat)
  inProgress : List String
  next : Nat
deriving DecidableEq, Repr

/-- Run the dependency requests of one build in order, stopping at the
first failure. -/
def runDeps (g : String → RState → RState × Except BuildErr Nat) :
    List String → RState → RState × Except BuildErr Unit
  | [], s => (s, .ok ())
  | k :: rest, s =>
    match g k s with
    | (s1, .error e) => (s1, .error e)
    | (s1, .ok _) => runDeps g rest s1

/-- Modelled from the spec: getOrBuild with cycle detection.  env gives, for
each key, the keys its building code requests.  A cached key returns at
once; a key already in progress fails with the cyclic build error; otherwise
the key is marked in progress, its dependencies are built, and only after
they all succeed is the new Cell registered under the key.  Errors
propagate without registering the failed key. -/
def gobR (env : String → List String) :
    Nat → String → RState → RState × Except BuildErr Nat
  | 0, k, s =>
    match lookupC k s.cache with
    | some i => (s, .ok i)
    | none =>
      if k ∈ s.inProgress then (s, .error .cyclic) else (s, .error .outOfFuel)
  | fuel + 1, k, s =>
    match lookupC k s.cache with
    | some i => (s, .ok i)
    | none =>
      if k ∈ s.inProgress then (s, .error .cyclic)
      else
        match runDeps (gobR env fuel) (env k) { s with inProgress := k :: s.inProgress } with
        | (s2, .error e) => (s2, .error e)
        | (s2, .ok _) =>
          ({ cache := (k, s2.next) :: s2.cache,
             inProgress := s2.inProgress.erase k,
             next := s2.next + 1 }, .ok s2.next)

/-- Modelled from the spec: the type-derived prefix of a port category,
looked up in the open, runtime-extensible registry of categories; an
unregistered category falls back to its leading letter. -/
def prefixOf (policy : List (String × String)) (t : String) : String :=
  (lookupC t policy).getD (t.take 1)

/-- Which side of the bounding box a port sits on, in the order the
clockwise walk from the bottom-left corner meets the sides: west, north,
east, south. -/
def portSide (bb : Rect) (p : Port) : Nat :=
  if p.pos.x = bb.lox then 0
  else if p.pos.y = bb.hiy then 1
  else if p.pos.x = bb.hix then 2
  else 3

/-- Modelled from the spec: the clockwise-from-bottom-left ordering key of
a port — side first, then position along the walk (ascending coordinate),
ties broken by the other coordinate descending. -/
def portKey (bb : Rect) (p : Port) : Nat × ℚ × ℚ :=
  let s := portSide bb p
  if s = 0 then (0, p.pos.y, -p.pos.x)
  else if s = 1 then (1, p.pos.x, -p.pos.y)
  else if s = 2 then (2, -p.pos.y, p.pos.x)
  else (3, -p.pos.x, p.pos.y)

/-- Lexicographic comparison of ordering keys. -/
def leKey (a b : Nat × ℚ × ℚ) : Bool :=
  decide (a.1 < b.1 ∨ (a.1 = b.1 ∧
    (a.2.1 < b.2.1 ∨ (a.2.1 = b.2.1 ∧ a.2.2 ≤ b.2.2))))

/-- Comparison of two ports along the clockwise walk. -/
def pkle (bb : Rect) (a b : Port) : Bool :=
  leKey (portKey bb a) (portKey bb b)

/-- Ports sorted along the clockwise walk around the bounding box. -/
def sortPorts (bb : Rect) (ports : List Port) : List Port :=
  ports.mergeSort (pkle bb)

/-- How many ports of a list carry a given prefix. -/
def countPre (policy : List (String × String)) (pre : String) (l : List Port) : Nat :=
  l.countP fun q => prefixOf policy q.ptype == pre

/-- Walk the sorted ports, giving each the next sequential number of its
prefix group (numbering starts at 1 per group). -/
def assignNamesAux (policy : List (String × String)) :
    List Port → List Port → List (Port × String)
  | _, [] => []
  | seen, p :: rest =>
    (p, prefixOf policy p.ptype ++ toString (countPre policy (prefixOf policy p.ptype) seen + 1)) ::
      assignNamesAux policy (seen ++ [p]) rest

/-- Modelled from the spec: the Port-Naming Engine — group ports by
type-derived prefix, order them along the clockwise bounding-box walk from
the bottom-left corner, and number each group sequentially from 1. -/
def autoRenamePorts (policy : List (String × String)) (bb : Rect)
    (ports : List Port) : List (Port × String) :=
  assignNamesAux policy [] (sortPorts bb ports)

/-- Modelled from the spec: errors of the Sequence Interpreter. -/
inductive SeqErr where
  | unknownSymbol
  | emptySequence
  | connectFailed (e : ConnErr)
deriving DecidableEq, Repr

/-- Intermediate state of the Sequence Interpreter: instances built so far,
number of connect operations performed, the exposed in-port of the first
instance and the out-port of the last one. -/
structure SeqAcc where
  insts : List Inst
  connects : Nat
  firstIn : Port
  prevOut : Port
deriving DecidableEq, Repr

/-- The interpreter loop: instantiate each remaining symbol's Cell and
connect its in-port to the previous instance's out-port. -/
def seqGo (dir : ℚ → Vec2) (cells : List Cell)
    (table : Char → Option (Nat × String × String)) :
    List Char → SeqAcc → Except SeqErr SeqAcc
  | [], acc => .ok acc
  | s :: rest, acc =>
    match table s with
    | none => .error .unknownSymbol
    | some (cid, inN, outN) =>
      match cells[cid]? with
      | none => .error .unknownSymbol
      | some c =>
        match findPort c inN, findPort c outN with
        | some pin, some pout =>
          match connectT dir pin acc.prevOut false with
          | .error e => .error (.connectFailed e)
          | .ok t =>
            seqGo dir cells table rest
              { insts := acc.insts ++ [⟨cid, t, unitArr⟩]
                connects := acc.connects + 1
                firstIn := acc.firstIn
                prevOut := transformPort dir t pout }
        | _, _ => .error (.connectFailed .portNotFound)

/-- Modelled from the spec: the Sequence Interpreter — for each symbol in
order instantiate its Cell, connect the current instance's in-port to the
previous instance's out-port, and expose the first symbol's in-port and the
last symbol's out-port as the composite Cell's own ports.  It also reports
how many connect operations were performed. -/
def componentSequence (dir : ℚ → Vec2) (cells : List Cell) (syms : List Char)
    (table : Char → Option (Nat × String × String)) : Except SeqErr (Cell × Nat) :=
  match syms with
  | [] => .error .emptySequence
  | s0 :: rest =>
    match table s0 with
    | none => .error .unknownSymbol
    | some (cid, inN, outN) =>
      match cells[cid]? with
      | none => .error .unknownSymbol
      | some c =>
        match findPort c inN, findPort c outN with
        | some pin, some pout =>
          match seqGo dir cells table rest
              ⟨[⟨cid, idT, unitArr⟩], 0,
               transformPort dir idT pin, transformPort dir idT pout⟩ with
          | .error e => .error e
          | .ok acc =>
            .ok (⟨"sequence", [], [acc.firstIn, acc.prevOut], acc.insts⟩, acc.connects)
        | _, _ => .error (.connectFailed .portNotFound)

/-! ## Concrete fixtures used by the witnesses -/

/-- The direction function of the trivial rotation model: every angle maps
to the unit direction (1, 0).  It satisfies the composition laws of cosine
and sine, so it serves as a concrete evaluation point. -/
def dir0 : ℚ → Vec2 := fun _ => ⟨1, 0⟩

/-- A sample transform. -/
def T0 : Transform := ⟨1, 2, 30, false⟩

/-- A sample point. -/
def P0 : Vec2 := ⟨3, 4⟩

/-- A sample optical port at the origin facing east. -/
def A0 : Port := ⟨"o1", ⟨0, 0⟩, 0, 1, (1, 0), "optical"⟩

/-- A sample optical port facing west, mate of A0. -/
def B0 : Port := ⟨"o2", ⟨5, 0⟩, 180, 1, (1, 0), "optical"⟩

/-- A port whose width differs from B0's. -/
def A3 : Port := ⟨"o1", ⟨0, 0⟩, 0, 2, (1, 0), "optical"⟩

/-- A two-cell world: an empty parent at index 0 and an empty child at 1. -/
def w10 : World := ⟨[⟨"c", [], [], []⟩, ⟨"p", [], [], []⟩]⟩

/-- A world with a parent holding one instance of a child that carries the
port A0. -/
def wC6 : World := ⟨[⟨"top", [], [], [⟨1, idT, unitArr⟩]⟩, ⟨"sub", [], [A0], []⟩]⟩

/-- The build environment of the cyclic chain X requests Y requests X. -/
def envXY : String → List String := fun k =>
  if k = "X" then ["Y"] else if k = "Y" then ["X"] else []

/-- A plain instance of the Cell at arena index 1. -/
def rC2 : Inst := ⟨1, idT, unitArr⟩

/-- A world where Cell 0 references Cell 1, which is still empty. -/
def wC2 : World := ⟨[⟨"C", [], [], [rC2]⟩, ⟨"P", [], [], []⟩]⟩

/-- A sample polygon with a single vertex list. -/
def pgC2 : Polygon := ⟨(1, 0), [⟨1, 2⟩]⟩

/-- An optical port named o1 sitting at the local origin. -/
def portO1 : Port := ⟨"o1", ⟨0, 0⟩, 0, 1, (1, 0), "optical"⟩

/-- A one-cell arena holding the array target with the single port o1. -/
def arrCells : List Cell := [⟨"t", [], [portO1], []⟩]

/-- The 2 x 2 array instance of the spec scenario: row pitch (0,20),
column pitch (10,0), over an arbitrary base transform. -/
def arrInst (base : Transform) : Inst := ⟨0, base, ⟨2, 2, ⟨0, 20⟩, ⟨10, 0⟩⟩⟩

/-- An optical port on the west side of the sample bounding box. -/
def pOpt : Port := ⟨"p1", ⟨0, 0⟩, 0, 1, (1, 0), "optical"⟩

/-- An electrical port on the north side of the sample bounding box. -/
def pElec : Port := ⟨"p2", ⟨4, 3⟩, 90, 1, (1, 0), "electrical"⟩

/-- The sample bounding box for port naming. -/
def bbC8 : Rect := ⟨0, 0, 4, 3⟩

/-- A sample prefix registry: optical maps to o, electrical to e. -/
def polC8 : List (String × String) := [("optical", "o"), ("electrical", "e")]

/-- The in-port of the sequence fixtures. -/
def pInA : Port := ⟨"in", ⟨0, 0⟩, 180, 1, (1, 0), "optical"⟩

/-- The out-port of the sequence fixtures. -/
def pOutA : Port := ⟨"out", ⟨2, 0⟩, 0, 1, (1, 0), "optical"⟩

/-- The first sequence Cell. -/
def cellA : Cell := ⟨"A", [], [pInA, pOutA], []⟩

/-- The second sequence Cell. -/
def cellB : Cell := ⟨"B", [], [pInA, pOutA], []⟩

/-- The arena of the sequence fixtures. -/
def seqCells : List Cell := [cellA, cellB]

/-- The symbol table of the sequence fixtures. -/
def seqTable : Char → Option (Nat × String × String) := fun c =>
  if c = 'A' then some (0, "in", "out")
  else if c = 'B' then some (1, "in", "out") else none

/-! ## Supporting lemmas -/

theorem Vec2.add_def (a b : Vec2) : a + b = ⟨a.x + b.x, a.y + b.y⟩ := rfl

theorem Vec2.ext_xy {a b : Vec2} (hx : a.x = b.x) (hy : a.y = b.y) : a = b := by
  cases a; cases b; simp_all

theorem normDeg_sub_int (a : ℚ) (k : ℤ) : normDeg (a - 360 * k) = normDeg a := by
  unfold normDeg
  have h : (a - 360 * k) / 360 = a / 360 - k := by ring
  rw [h, Int.floor_sub_int]
  push_cast
  ring

theorem normDeg_add_left (a b : ℚ) : normDeg (normDeg a + b) = normDeg (a + b) := by
  unfold normDeg
  have h : a - 360 * (⌊a / 360⌋ : ℤ) + b = (a + b) - 360 * (⌊a / 360⌋ : ℤ) := by ring
  rw [h]
  have := normDeg_sub_int (a + b) ⌊a / 360⌋
  unfold normDeg at this
  rw [this]

theorem listModify_getElem_self (f : α → α) (i : Nat) (l : List α) :
    (listModify f i l)[i]? = (l[i]?).map f := by
  induction l generalizing i with
  | nil => simp [listModify]
  | cons a t ih =>
    cases i with
    | zero => simp [listModify]
    | succ n => simpa [listModify] using ih n

theorem listModify_getElem_ne (f : α → α) (i j : Nat) (l : List α) (h : j ≠ i) :
    (listModify f i l)[j]? = l[j]? := by
  induction l generalizing i j with
  | nil => simp [listModify]
  | cons a t ih =>
    cases i with
    | zero =>
      cases j with
      | zero => exact absurd rfl h
      | succ m => simp [listModify]
    | succ n =>
      cases j with
      | zero => simp [listModify]
      | succ m => simpa [listModify] using ih n m (fun hh => h (by omega))

theorem listModify_length (f : α → α) (i : Nat) (l : List α) :
    (listModify f i l).length = l.length := by
  induction l generalizing i with
  | nil => simp [listModify]
  | cons a t ih =>
    cases i with
    | zero => simp [listModify]
    | succ n => simpa [listModify] using ih n

theorem memO_ojoin_l {p : Vec2} {a b : Option Rect} (h : memO p a) :
    memO p (ojoin a b) := by
  obtain ⟨ra, hra, h1, h2, h3, h4⟩ := h
  subst hra
  cases b with
  | none => exact ⟨ra, rfl, h1, h2, h3, h4⟩
  | some rb =>
    exact ⟨rjoin ra rb, rfl,
      le_trans (min_le_left _ _) h1, le_trans h2 (le_max_left _ _),
      le_trans (min_le_left _ _) h3, le_trans h4 (le_max_left _ _)⟩

theorem memO_ojoin_r {p : Vec2} {a b : Option Rect} (h : memO p b) :
    memO p (ojoin a b) := by
  obtain ⟨rb, hrb, h1, h2, h3, h4⟩ := h
  subst hrb
  cases a with
  | none => exact ⟨rb, rfl, h1, h2, h3, h4⟩
  | some ra =>
    exact ⟨rjoin ra rb, rfl,
      le_trans (min_le_right _ _) h1, le_trans h2 (le_max_right _ _),
      le_trans (min_le_right _ _) h3, le_trans h4 (le_max_right _ _)⟩

theorem memO_unionAll {p : Vec2} {o : Option Rect} {l : List (Option Rect)}
    (ho : o ∈ l) (h : memO p o) : memO p (unionAll l) := by
  induction l with
  | nil => cases ho
  | cons a t ih =>
    rcases List.mem_cons.mp ho with rfl | hmem
    · exact memO_ojoin_l h
    · exact memO_ojoin_r (ih hmem)

theorem mem_bboxPts {q : Vec2} {pts : List Vec2} (h : q ∈ pts) :
    memO q (bboxPts pts) := by
  refine memO_unionAll (l := pts.map fun p => some ⟨p.x, p.y, p.x, p.y⟩)
    (List.mem_map_of_mem _ h) ?_
  exact ⟨_, rfl, le_refl _, le_refl _, le_refl _, le_refl _⟩

theorem min4_le {m1 m2 m3 m4 v : ℚ} (h : m1 ≤ v ∨ m2 ≤ v ∨ m3 ≤ v ∨ m4 ≤ v) :
    min m1 (min m2 (min m3 m4)) ≤ v := by
  rcases h with h | h | h | h
  · exact le_trans (min_le_left _ _) h
  · exact le_trans ((min_le_right _ _).trans (min_le_left _ _)) h
  · exact le_trans ((min_le_right _ _).trans ((min_le_right _ _).trans (min_le_left _ _))) h
  · exact le_trans ((min_le_right _ _).trans ((min_le_right _ _).trans (min_le_right _ _))) h

theorem le_max4 {m1 m2 m3 m4 v : ℚ} (h : v ≤ m1 ∨ v ≤ m2 ∨ v ≤ m3 ∨ v ≤ m4) :
    v ≤ max m1 (max m2 (max m3 m4)) := by
  rcases h with h | h | h | h
  · exact le_trans h (le_max_left _ _)
  · exact le_trans h ((le_max_left _ _).trans (le_max_right _ _))
  · exact le_trans h (((le_max_left _ _).trans (le_max_right _ _)).trans (le_max_right _ _))
  · exact le_trans h (((le_max_right _ _).trans (le_max_right _ _)).trans (le_max_right _ _))

set_option maxHeartbeats 1000000 in
theorem memO_transformRectO (dir : ℚ → Vec2) (t : Transform) {q : Vec2}
    {b : Option Rect} (h : memO q b) :
    memO (t.apply dir q) (transformRectO dir t b) := by
  obtain ⟨r, hb, h1, h2, h3, h4⟩ := h
  subst hb
  refine ⟨_, rfl, ?_⟩
  cases hm : t.mirror <;>
    simp only [Transform.apply, mirVec, hm, Bool.false_eq_true,
      ite_false, ite_true, rbox4, memRect, rotVec] <;>
    refine ⟨min4_le ?_, le_max4 ?_, min4_le ?_, le_max4 ?_⟩ <;>
      rcases le_total 0 (dir t.angle).x with ha | ha <;>
      rcases le_total 0 (dir t.angle).y with hb | hb <;>
      first
        | exact Or.inl (by nlinarith)
        | exact Or.inr (Or.inl (by nlinarith))
        | exact Or.inr (Or.inr (Or.inl (by nlinarith)))
        | exact Or.inr (Or.inr (Or.inr (by nlinarith)))

theorem length_flatMap_const {α β : Type} (l : List α) (f : α → List β) (k : Nat)
    (h : ∀ a ∈ l, (f a).length = k) : (l.flatMap f).length = l.length * k := by
  induction l with
  | nil => simp
  | cons a t ih =>
    have ha := h a (List.mem_cons_self a t)
    have ht : ∀ b ∈ t, (f b).length = k := fun b hb => h b (List.mem_cons_of_mem a hb)
    rw [List.flatMap_cons, List.length_append, ha, ih ht, List.length_cons, Nat.succ_mul,
      Nat.add_comm]

theorem memO_instBBoxFrom (dir : ℚ → Vec2) (i : Inst) (tb : Option Rect)
    {q : Vec2} (row col : Nat) (hrow : row < i.arr.rows) (hcol : col < i.arr.columns)
    (h : memO q tb) :
    memO ((effTrans i row col).apply dir q) (instBBoxFrom dir i tb) := by
  have hmem : (row, col) ∈ latticePlacements i.arr := by
    simp only [latticePlacements, List.mem_flatMap, List.mem_map, List.mem_range]
    exact ⟨row, hrow, col, hcol, rfl⟩
  have hh := memO_transformRectO dir (effTrans i row col) h
  have hmm := List.mem_map_of_mem (fun rc => transformRectO dir (effTrans i rc.1 rc.2) tb) hmem
  exact memO_unionAll hmm hh

theorem cellBBox_succ (dir : ℚ → Vec2) (cells : List Cell) (fuel ci : Nat)
    (c : Cell) (h : cells[ci]? = some c) :
    cellBBox dir cells (fuel + 1) ci =
      ojoin (unionAll (c.polys.map fun pg => bboxPts pg.pts))
            (unionAll (c.insts.map fun i =>
              instBBoxFrom dir i (cellBBox dir cells fuel i.target))) := by
  simp [cellBBox, h]

theorem runDeps_preserves (g : String → RState → RState × Except BuildErr Nat)
    (PP : RState → Prop) (hg : ∀ k s, PP s → PP (g k s).1) :
    ∀ (l : List String) (s : RState), PP s → PP (runDeps g l s).1 := by
  intro l
  induction l with
  | nil => intro s h; exact h
  | cons k rest ih =>
    intro s h
    have hgs := hg k s h
    unfold runDeps
    cases hgk : g k s with
    | mk s1 r =>
      rw [hgk] at hgs
      cases r with
      | error e => exact hgs
      | ok v => exact ih s1 hgs

theorem gobR_preserves (env : String → List String) (X : String) :
    ∀ (fuel : Nat) (k : String) (s : RState),
      lookupC X s.cache = none → X ∈ s.inProgress →
      lookupC X (gobR env fuel k s).1.cache = none ∧
        X ∈ (gobR env fuel k s).1.inProgress := by
  intro fuel
  induction fuel with
  | zero =>
    intro k s h1 h2
    unfold gobR
    cases hc : lookupC k s.cache with
    | some i => exact ⟨h1, h2⟩
    | none =>
      by_cases hk : k ∈ s.inProgress
      · simp only [hk, if_true, ite_true]
        exact ⟨h1, h2⟩
      · simp only [hk, if_false, ite_false]
        exact ⟨h1, h2⟩
  | succ n ih =>
    intro k s h1 h2
    unfold gobR
    cases hc : lookupC k s.cache with
    | some i => exact ⟨h1, h2⟩
    | none =>
      by_cases hk : k ∈ s.inProgress
      · simp only [hk, if_true, ite_true]
        exact ⟨h1, h2⟩
      · simp only [hk, if_false, ite_false]
        have hXk : X ≠ k := fun he => hk (he ▸ h2)
        have hP1 : lookupC X ({ s with inProgress := k :: s.inProgress } : RState).cache = none ∧
            X ∈ ({ s with inProgress := k :: s.inProgress } : RState).inProgress :=
          ⟨h1, List.mem_cons_of_mem _ h2⟩
        have hrd := runDeps_preserves (gobR env n)
          (fun st => lookupC X st.cache = none ∧ X ∈ st.inProgress)
          (fun k2 s2 h => ih k2 s2 h.1 h.2) (env k)
          { s with inProgress := k :: s.inProgress } hP1
        cases hrun : runDeps (gobR env n) (env k) { s with inProgress := k :: s.inProgress } with
        | mk s2 r =>
          rw [hrun] at hrd
          cases r with
          | error e => exact ⟨hrd.1, hrd.2⟩
          | ok v =>
            refine ⟨?_, ?_⟩
            · simp only [lookupC, if_neg hXk]
              exact hrd.1
            · exact (List.mem_erase_of_ne hXk).mpr hrd.2

theorem leKey_trans (x y z : Nat × ℚ × ℚ) (h1 : leKey x y = true)
    (h2 : leKey y z = true) : leKey x z = true := by
  simp only [leKey, decide_eq_true_eq] at h1 h2 ⊢
  rcases h1 with h1 | ⟨e1, h1⟩
  · rcases h2 with h2 | ⟨e2, h2⟩
    · exact Or.inl (h1.trans h2)
    · exact Or.inl (h1.trans_eq e2)
  · rcases h2 with h2 | ⟨e2, h2⟩
    · exact Or.inl (e1.trans_lt h2)
    · refine Or.inr ⟨e1.trans e2, ?_⟩
      rcases h1 with h1 | ⟨f1, h1⟩
      · rcases h2 with h2 | ⟨f2, h2⟩
        · exact Or.inl (h1.trans h2)
        · exact Or.inl (h1.trans_eq f2)
      · rcases h2 with h2 | ⟨f2, h2⟩
        · exact Or.inl (f1.trans_lt h2)
        · exact Or.inr ⟨f1.trans f2, h1.trans h2⟩

theorem leKey_total (x y : Nat × ℚ × ℚ) : leKey x y || leKey y x := by
  simp only [leKey, Bool.or_eq_true, decide_eq_true_eq]
  rcases lt_trichotomy x.1 y.1 with h | h | h
  · exact Or.inl (Or.inl h)
  · rcases lt_trichotomy x.2.1 y.2.1 with h2 | h2 | h2
    · exact Or.inl (Or.inr ⟨h, Or.inl h2⟩)
    · rcases le_total x.2.2 y.2.2 with h3 | h3
      · exact Or.inl (Or.inr ⟨h, Or.inr ⟨h2, h3⟩⟩)
      · exact Or.inr (Or.inr ⟨h.symm, Or.inr ⟨h2.symm, h3⟩⟩)
    · exact Or.inr (Or.inr ⟨h.symm, Or.inl h2⟩)
  · exact Or.inr (Or.inl h)

theorem leKey_antisymm (x y : Nat × ℚ × ℚ) (h1 : leKey x y = true)
    (h2 : leKey y x = true) : x = y := by
  simp only [leKey, decide_eq_true_eq] at h1 h2
  rcases h1 with h1 | ⟨e1, h1⟩
  · rcases h2 with h2 | ⟨e2, h2⟩
    · exact absurd (h1.trans h2) (lt_irrefl _)
    · exact absurd (h1.trans_eq e2) (lt_irrefl _)
  · rcases h2 with h2 | ⟨e2, h2⟩
    · exact absurd (h2.trans_eq e1) (lt_irrefl _)
    · rcases h1 with h1 | ⟨f1, h1⟩
      · rcases h2 with h2 | ⟨f2, h2⟩
        · exact absurd (h1.trans h2) (lt_irrefl _)
        · exact absurd (h1.trans_eq f2) (lt_irrefl _)
      · rcases h2 with h2 | ⟨f2, h2⟩
        · exact absurd (h2.trans_eq f1) (lt_irrefl _)
        · exact Prod.ext e1 (Prod.ext f1 (le_antisymm h1 h2))

theorem sorted_perm_eq {α : Type} (key : α → Nat × ℚ × ℚ) :
    ∀ (l₁ l₂ : List α), l₁.Perm l₂ →
    l₁.Pairwise (fun a b => leKey (key a) (key b) = true) →
    l₂.Pairwise (fun a b => leKey (key a) (key b) = true) →
    (l₁.map key).Nodup → l₁ = l₂ := by
  intro l₁
  induction l₁ with
  | nil =>
    intro l₂ hp _ _ _
    exact hp.nil_eq
  | cons a t ih =>
    intro l₂ hp hs1 hs2 hnd
    cases l₂ with
    | nil =>
      have := hp.length_eq
      simp at this
    | cons b t₂ =>
      have hnd2 : (∀ x ∈ t, ¬key x = key a) ∧ (t.map key).Nodup := by
        simpa using hnd
      have hab : a = b := by
        have ha2 : a ∈ b :: t₂ := hp.mem_iff.mp (List.mem_cons_self a t)
        have hb1 : b ∈ a :: t := hp.mem_iff.mpr (List.mem_cons_self b t₂)
        rcases List.mem_cons.mp ha2 with h | ha2'
        · exact h
        rcases List.mem_cons.mp hb1 with h | hb1'
        · exact h.symm
        have h1 : leKey (key a) (key b) = true := (List.pairwise_cons.mp hs1).1 b hb1'
        have h2 : leKey (key b) (key a) = true := (List.pairwise_cons.mp hs2).1 a ha2'
        have hk : key a = key b := leKey_antisymm _ _ h1 h2
        exact absurd hk.symm (hnd2.1 b hb1')
      subst hab
      have ht : t = t₂ :=
        ih t₂ hp.cons_inv (List.pairwise_cons.mp hs1).2
          (List.pairwise_cons.mp hs2).2 hnd2.2
      rw [ht]

theorem sortPorts_perm_invariant (bb : Rect) (ps₁ ps₂ : List Port)
    (hperm : ps₁.Perm ps₂) (hnd : (ps₁.map (portKey bb)).Nodup) :
    sortPorts bb ps₁ = sortPorts bb ps₂ := by
  have htrans : ∀ a b c : Port, pkle bb a b → pkle bb b c → pkle bb a c :=
    fun a b c h1 h2 => leKey_trans _ _ _ h1 h2
  have htotal : ∀ a b : Port, pkle bb a b || pkle bb b a :=
    fun a b => leKey_total _ _
  refine sorted_perm_eq (portKey bb) _ _ ?_ ?_ ?_ ?_
  · exact ((List.mergeSort_perm ps₁ _).trans hperm).trans (List.mergeSort_perm ps₂ _).symm
  · exact List.sorted_mergeSort htrans htotal ps₁
  · exact List.sorted_mergeSort htrans htotal ps₂
  · exact (((List.mergeSort_perm ps₁ (pkle bb)).map (portKey bb)).symm).nodup hnd

theorem assignNamesAux_shape (policy : List (String × String)) :
    ∀ (l seen : List Port) (p : Port) (n : String),
      (p, n) ∈ assignNamesAux policy seen l →
      ∃ k : Nat, 1 ≤ k ∧ n = prefixOf policy p.ptype ++ toString k := by
  intro l
  induction l with
  | nil =>
    intro seen p n h
    simp [assignNamesAux] at h
  | cons q rest ih =>
    intro seen p n h
    rw [assignNamesAux] at h
    rcases List.mem_cons.mp h with h | h
    · injection h with hp hn
      subst hp
      exact ⟨countPre policy (prefixOf policy p.ptype) seen + 1, by omega, hn⟩
    · exact ih _ p n h

theorem connectT_ok_spec (dir : ℚ → Vec2) (A B : Port) (allow : Bool)
    (h : A.width = B.width ∨ allow = true) :
    ∃ t, connectT dir A B allow = .ok t ∧ t.mirror = false ∧
      (transformPort dir t A).pos = B.pos ∧
      (transformPort dir t A).orientation = normDeg (B.orientation + 180) := by
  unfold connectT
  rw [if_pos h]
  refine ⟨_, rfl, rfl, ?_, ?_⟩
  · apply Vec2.ext_xy <;>
      simp only [transformPort, Transform.apply, mirVec, rotVec, Bool.false_eq_true,
        ite_false] <;> ring
  · simp only [transformPort, Bool.false_eq_true, ite_false]
    rw [normDeg_add_left]
    congr 1
    ring

/-! ## Claim theorems -/

/-- C1: for every build identity f and argument tuple a, getOrBuild(f,a)
called twice returns the identical shared Cell (the same arena identity,
not merely an equal copy): the second call returns the cached result and
leaves the registry unchanged, so repeated builds with the same canonical
key are idempotent and produce structural sharing. -/
theorem cache_identity (f : String) (args : List (String × ℚ))
    (build : Registry → Registry × Nat) (R : Registry) :
    getOrBuild f args build (getOrBuild f args build R).1 =
      getOrBuild f args build R := by
  unfold getOrBuild
  cases h : lookupC (canonKey f args) R.cache with
  | some i => simp [h]
  | none => simp [h, lookupC]

/-- C10: the shift-left shorthand is exactly add_ref — identical resulting
parent state; both append one fresh Instance of the target with the
identity transform at the same index, and leave every other Cell alone. -/
theorem lshift_addRef_equiv (w : World) (p t : Nat) :
    lshiftW w p t = addRefW w p t unitArr ∧
    ∀ c, w.cells[p]? = some c →
      (addRefW w p t unitArr).1.cells[p]? =
          some { c with insts := c.insts ++ [{ target := t, trans := idT, arr := unitArr }] } ∧
      (addRefW w p t unitArr).2 = c.insts.length ∧
      ∀ j, j ≠ p → (addRefW w p t unitArr).1.cells[j]? = w.cells[j]? := by
  refine ⟨rfl, ?_⟩
  intro c hc
  refine ⟨?_, ?_, ?_⟩
  · simp [addRefW, updateCellW, listModify_getElem_self, hc]
  · simp [addRefW, hc]
  · intro j hj
    simp [addRefW, updateCellW, listModify_getElem_ne _ _ _ _ hj]

theorem lshift_addRef_equiv_witness :
    lshiftW w10 0 1 = addRefW w10 0 1 unitArr ∧
    (addRefW w10 0 1 unitArr).2 = 0 ∧
    (addRefW w10 0 1 unitArr).1.cells[1]? = w10.cells[1]? := by
  obtain ⟨h1, h2⟩ := lshift_addRef_equiv w10 0 1
  obtain ⟨ha, hb, hc⟩ := h2 ⟨"c", [], [], []⟩ rfl
  exact ⟨h1, by rw [hb]; rfl, hc 1 (by decide)⟩

/-- C3: chained transform calls compose left to right: rotate(37) followed
by move(10,20) sends any point p of the target first through the rotated
placement and then through the translation, i.e. the chain equals rotating
the instance by 37 degrees about the default center and then translating by
(10,20); move composes a plain translation after any current placement;
both world-level operations return the very instance they acted on, and
the chained world-level calls compose the instance transform exactly as
rotate-then-move.  dir is required to satisfy the angle-addition law of
cosine and sine. -/
theorem transform_chaining (dir : ℚ → Vec2)
    (hdir : ∀ a b : ℚ, dir (a + b) = rotVec (dir a) (dir b)) (t : Transform) (p : Vec2) :
    (((t.rotate dir 37).move ⟨10, 20⟩).apply dir p =
        rotVec (dir 37) (t.apply dir p) + ⟨10, 20⟩) ∧
    (∀ v, ((t.rotate dir 37).move v).apply dir p = (t.rotate dir 37).apply dir p + v) ∧
    (∀ w ci ii, (rotateInstR dir w ci ii 37).2 = (ci, ii) ∧
       ∀ v, (moveInstR w ci ii v).2 = (ci, ii)) ∧
    (∀ w ci ii c i0, w.cells[ci]? = some c → c.insts[ii]? = some i0 →
       ∃ c2, (moveInstR (rotateInstR dir w ci ii 37).1 ci ii ⟨10, 20⟩).1.cells[ci]? = some c2 ∧
         c2.insts[ii]? = some { i0 with trans := (i0.trans.rotate dir 37).move ⟨10, 20⟩ }) := by
  refine ⟨?_, ?_, ?_, ?_⟩
  · have h37 := hdir t.angle 37
    cases hm : t.mirror <;>
      apply Vec2.ext_xy <;>
        simp only [Transform.apply, Transform.rotate, Transform.move, rotVec, mirVec,
          Vec2.add_def, hm, h37, Bool.false_eq_true, ite_false, ite_true] <;> ring
  · intro v
    cases hm : t.mirror <;>
      apply Vec2.ext_xy <;>
        simp only [Transform.apply, Transform.rotate, Transform.move, rotVec, mirVec,
          Vec2.add_def, hm, Bool.false_eq_true, ite_false, ite_true] <;> ring
  · exact fun w ci ii => ⟨rfl, fun v => rfl⟩
  · intro w ci ii c i0 hc hi
    refine ⟨{ c with insts := listModify (fun i => { i with trans := i.trans.move ⟨10, 20⟩ }) ii (listModify (fun i => { i with trans := Transform.rotate dir 37 i.trans }) ii c.insts) }, ?_, ?_⟩
    · simp [moveInstR, rotateInstR, updateInstW, updateCellW, listModify_getElem_self, hc]
    · simp [listModify_getElem_self, hi]

theorem transform_chaining_witness :
    ((T0.rotate dir0 37).move ⟨10, 20⟩).apply dir0 P0 =
      rotVec (dir0 37) (T0.apply dir0 P0) + ⟨10, 20⟩ := by
  have h : ∀ a b : ℚ, dir0 (a + b) = rotVec (dir0 a) (dir0 b) := by
    intro a b
    show (⟨1, 0⟩ : Vec2) = rotVec ⟨1, 0⟩ ⟨1, 0⟩
    simp [rotVec]
  exact (transform_chaining dir0 h T0 P0).1

/-- C5: for every pair of resolvable ports with matching widths (or with
the explicit width override), the Connection Engine yields the unique
un-mirrored rigid transform placing the instance's port at the other
port's position with orientation rotated 180 degrees (antiparallel and
coincident); on the world, a successful connect replaces exactly the
instance's transform with that result and returns that same instance;
differing widths without the override fail with the width-mismatch error,
and an unresolved port name on either side fails with port-not-found. -/
theorem connection_alignment (dir : ℚ → Vec2) (B : Port) (allow : Bool) :
    (∀ A : Port, (A.width = B.width ∨ allow = true) →
       ∃ t, connectT dir A B allow = .ok t ∧ t.mirror = false ∧
         (transformPort dir t A).pos = B.pos ∧
         (transformPort dir t A).orientation = normDeg (B.orientation + 180)) ∧
    (∀ A : Port, A.width ≠ B.width → allow = false →
       connectT dir A B allow = .error .widthMismatch) ∧
    (∀ pB, connectNamed dir none pB allow = .error .portNotFound) ∧
    (∀ pA, connectNamed dir pA none allow = .error .portNotFound) ∧
    (∀ (w : World) ci ii pname c i0 tc A,
       w.cells[ci]? = some c → c.insts[ii]? = some i0 →
       w.cells[i0.target]? = some tc → findPort tc pname = some A →
       (A.width = B.width ∨ allow = true) →
       ∃ t, connectT dir A B allow = .ok t ∧
         connectW dir w ci ii pname B allow =
           .ok (updateInstW w ci ii fun j => { j with trans := t })) ∧
    (∀ (w : World) ci ii pname c i0 tc,
       w.cells[ci]? = some c → c.insts[ii]? = some i0 →
       w.cells[i0.target]? = some tc → findPort tc pname = none →
       connectW dir w ci ii pname B allow = .error .portNotFound) := by
  refine ⟨fun A h => connectT_ok_spec dir A B allow h, ?_, ?_, ?_, ?_, ?_⟩
  · intro A hne hallow
    unfold connectT
    rw [if_neg]
    simp [hne, hallow]
  · intro pB
    cases pB <;> rfl
  · intro pA
    cases pA <;> rfl
  · intro w ci ii pname c i0 tc A hc hi htc hfp h
    obtain ⟨t, het, -, -, -⟩ := connectT_ok_spec dir A B allow h
    refine ⟨t, het, ?_⟩
    simp [connectW, hc, hi, htc, hfp, het]
  · intro w ci ii pname c i0 tc hc hi htc hfp
    simp [connectW, hc, hi, htc, hfp]

theorem connection_alignment_witness :
    (∃ t, connectT dir0 A0 B0 false = .ok t ∧ t.mirror = false ∧
       (transformPort dir0 t A0).pos = B0.pos ∧
       (transformPort dir0 t A0).orientation = normDeg (B0.orientation + 180)) ∧
    connectT dir0 A3 B0 false = .error .widthMismatch := by
  refine ⟨(connection_alignment dir0 B0 false).1 A0 (Or.inl (by decide)), ?_⟩
  exact (connection_alignment dir0 B0 false).2.1 A3 (by decide) rfl

/-- C6: a successful connect changes only the instance's transform.  Every
other Cell of the world is untouched; the parent Cell keeps its name,
polygons, ports and all other instances; the connected instance keeps its
target and array parameters and only its transform is replaced.  No
persistent link is created: a later move displaces the connected port's
position by exactly the move vector, so a nonzero move leaves the two
ports no longer coincident — nothing re-aligns them. -/
theorem connect_one_time_alignment (dir : ℚ → Vec2) (w : World) (ci ii : Nat)
    (pname : String) (other : Port) (allow : Bool) (w2 : World)
    (hok : connectW dir w ci ii pname other allow = .ok w2) :
    (∀ j, j ≠ ci → w2.cells[j]? = w.cells[j]?) ∧
    (∃ c c2 i0 t, w.cells[ci]? = some c ∧ w2.cells[ci]? = some c2 ∧
      c2.name = c.name ∧ c2.polys = c.polys ∧ c2.ports = c.ports ∧
      c2.insts.length = c.insts.length ∧
      (∀ k, k ≠ ii → c2.insts[k]? = c.insts[k]?) ∧
      c.insts[ii]? = some i0 ∧ c2.insts[ii]? = some { i0 with trans := t }) ∧
    (∀ (t' : Transform) (A : Port) (v : Vec2),
      (transformPort dir (t'.move v) A).pos = (transformPort dir t' A).pos + v) ∧
    (∀ (t' : Transform) (A : Port) (v : Vec2), v ≠ 0 →
      (transformPort dir t' A).pos = other.pos →
      (transformPort dir (t'.move v) A).pos ≠ other.pos) := by
  have hmove : ∀ (t' : Transform) (A : Port) (v : Vec2),
      (transformPort dir (t'.move v) A).pos = (transformPort dir t' A).pos + v := by
    intro t' A v
    apply Vec2.ext_xy <;>
      simp only [transformPort, Transform.apply, Transform.move, mirVec, rotVec,
        Vec2.add_def] <;> ring
  unfold connectW at hok
  cases hc : w.cells[ci]? with
  | none => simp only [hc] at hok; exact absurd hok (by simp)
  | some c =>
    simp only [hc] at hok
    cases hi : c.insts[ii]? with
    | none => simp only [hi] at hok; exact absurd hok (by simp)
    | some i0 =>
      simp only [hi] at hok
      cases htc : w.cells[i0.target]? with
      | none => simp only [htc] at hok; exact absurd hok (by simp)
      | some tc =>
        simp only [htc] at hok
        cases hfp : findPort tc pname with
        | none => simp only [hfp] at hok; exact absurd hok (by simp)
        | some A =>
          simp only [hfp] at hok
          cases het : connectT dir A other allow with
          | error e => simp only [het] at hok; exact absurd hok (by simp)
          | ok t =>
            simp only [het] at hok
            have hw2 : w2 = updateInstW w ci ii fun j => { j with trans := t } := by
              injection hok with h
              exact h.symm
            subst hw2
            refine ⟨?_, ?_, hmove, ?_⟩
            · intro j hj
              simp [updateInstW, updateCellW, listModify_getElem_ne _ _ _ _ hj]
            · refine ⟨c, { c with insts := listModify (fun j => { j with trans := t }) ii c.insts },
                i0, t, rfl, ?_, rfl, rfl, rfl, listModify_length _ _ _, ?_, hi, ?_⟩
              · simp [updateInstW, updateCellW, listModify_getElem_self, hc]
              · intro k hk
                exact listModify_getElem_ne _ _ _ _ hk
              · simp [listModify_getElem_self, hi]
            · intro t' A' v hv heq hcoin
              apply hv
              rw [hmove t' A' v, heq] at hcoin
              cases hvv : v with
              | mk vx vy =>
                rw [hvv] at hcoin
                have hx := congrArg Vec2.x hcoin
                have hy := congrArg Vec2.y hcoin
                simp only [Vec2.add_def] at hx hy
                have hvx : vx = 0 := by linarith
                have hvy : vy = 0 := by linarith
                subst hvx
                subst hvy
                rfl

theorem connect_one_time_alignment_witness :
    ∃ w2, connectW dir0 wC6 0 0 "o1" B0 false = .ok w2 ∧
      ∀ j, j ≠ 0 → w2.cells[j]? = wC6.cells[j]? := by
  have hok : connectW dir0 wC6 0 0 "o1" B0 false =
      .ok (updateInstW wC6 0 0 fun j => { j with trans := ⟨5, 0, 0, false⟩ }) := by
    have ha : normDeg ((180 : ℚ) + 180) = 0 := by
      norm_num [normDeg]
    simp [connectW, wC6, findPort, connectT, A0, B0, dir0, rotVec, ha, List.find?]
  obtain ⟨h1, -, -, -⟩ :=
    connect_one_time_alignment dir0 wC6 0 0 "o1" B0 false _ hok
  exact ⟨_, hok, h1⟩

/-- C2: references are live pointers.  If Cell P is referenced by an
Instance r inside Cell C, then adding a polygon to P — with no operation on
C or on r, whose stored data are untouched — makes boundingBox(C) include
the new polygon: every vertex of the polygon, mapped through any lattice
placement of r, lies inside the recomputed bounding box of C. -/
theorem live_reference_mutation (dir : ℚ → Vec2) (w : World) (C P : Nat)
    (cC cP : Cell) (r : Inst) (pg : Polygon) (fuel : Nat)
    (hC : w.cells[C]? = some cC) (hP : w.cells[P]? = some cP)
    (hr : r ∈ cC.insts) (htgt : r.target = P) (hCP : C ≠ P)
    (row col : Nat) (hrow : row < r.arr.rows) (hcol : col < r.arr.columns) :
    (addPolygonW w P pg).cells[C]? = some cC ∧
    ∀ q ∈ pg.pts,
      memO ((effTrans r row col).apply dir q)
        (cellBBox dir (addPolygonW w P pg).cells (fuel + 1 + 1) C) := by
  have hC2 : (addPolygonW w P pg).cells[C]? = some cC := by
    simp [addPolygonW, updateCellW, listModify_getElem_ne _ _ _ _ hCP, hC]
  refine ⟨hC2, ?_⟩
  intro q hq
  have hP2 : (addPolygonW w P pg).cells[P]? =
      some { cP with polys := cP.polys ++ [pg] } := by
    simp [addPolygonW, updateCellW, listModify_getElem_self, hP]
  have h1 : memO q (cellBBox dir (addPolygonW w P pg).cells (fuel + 1) P) := by
    rw [cellBBox_succ dir _ fuel P _ hP2]
    apply memO_ojoin_l
    refine memO_unionAll ?_ (mem_bboxPts hq)
    exact List.mem_map_of_mem _ (List.mem_append_right _ (List.mem_singleton.mpr rfl))
  have h3 : memO ((effTrans r row col).apply dir q)
      (instBBoxFrom dir r (cellBBox dir (addPolygonW w P pg).cells (fuel + 1) r.target)) := by
    rw [htgt]
    exact memO_instBBoxFrom dir r _ row col hrow hcol h1
  rw [cellBBox_succ dir _ (fuel + 1) C _ hC2]
  apply memO_ojoin_r
  have hmm := List.mem_map_of_mem
    (fun i => instBBoxFrom dir i (cellBBox dir (addPolygonW w P pg).cells (fuel + 1) i.target)) hr
  exact memO_unionAll hmm h3

theorem live_reference_mutation_witness :
    memO ((effTrans rC2 0 0).apply dir0 ⟨1, 2⟩)
      (cellBBox dir0 (addPolygonW wC2 1 pgC2).cells 2 0) := by
  have h := live_reference_mutation dir0 wC2 0 1 ⟨"C", [], [], [rC2]⟩ ⟨"P", [], [], []⟩
    rC2 pgC2 0 rfl rfl (by simp) rfl (by decide) 0 0 (by decide) (by decide)
  exact h.2 ⟨1, 2⟩ (by simp [pgC2])

/-- C4: an array instance with r rows and c columns exposes one
addressable port entry per target port per lattice cell, keyed by
(name, row, col) — in total target-port-count times r times c entries; the
placement (row, col) carries the base transform composed with the lattice
translation row times row-pitch plus col times column-pitch, applied in
the parent frame; and in the 2 x 2 scenario with row pitch (0,20), column
pitch (10,0) and target port o1 at the local origin, the exposed port
(o1,1,1) sits at base.apply((0,0)) + (10,20), the exposed port (o1,0,0)
sits at base.apply((0,0)), and 4 ports are exposed in total. -/
theorem array_addressing (dir : ℚ → Vec2) :
    (∀ (cells : List Cell) (i : Inst) (t : Cell), cells[i.target]? = some t →
       (exposedPorts dir cells i).length = t.ports.length * i.arr.rows * i.arr.columns) ∧
    (∀ (cells : List Cell) (i : Inst) (t : Cell) (p : Port) (row col : Nat),
       cells[i.target]? = some t → row < i.arr.rows → col < i.arr.columns →
       p ∈ t.ports →
       ((p.name, row, col), transformPort dir (effTrans i row col) p) ∈
         exposedPorts dir cells i) ∧
    (∀ (i : Inst) (row col : Nat) (p : Port),
       (transformPort dir (effTrans i row col) p).pos =
         i.trans.apply dir p.pos + latticeOffset i.arr row col) ∧
    (∀ base : Transform,
       (exposedPorts dir arrCells (arrInst base)).length = 4 ∧
       exposedLookup dir arrCells (arrInst base) ("o1", 1, 1) =
         some (transformPort dir (effTrans (arrInst base) 1 1) portO1) ∧
       (transformPort dir (effTrans (arrInst base) 1 1) portO1).pos =
         base.apply dir ⟨0, 0⟩ + ⟨10, 20⟩ ∧
       exposedLookup dir arrCells (arrInst base) ("o1", 0, 0) =
         some (transformPort dir (effTrans (arrInst base) 0 0) portO1) ∧
       (transformPort dir (effTrans (arrInst base) 0 0) portO1).pos =
         base.apply dir ⟨0, 0⟩) := by
  have hpos : ∀ (i : Inst) (row col : Nat) (p : Port),
      (transformPort dir (effTrans i row col) p).pos =
        i.trans.apply dir p.pos + latticeOffset i.arr row col := by
    intro i row col p
    apply Vec2.ext_xy <;>
      simp only [transformPort, Transform.apply, Transform.move, effTrans,
        Vec2.add_def] <;> ring
  refine ⟨?_, ?_, hpos, ?_⟩
  · intro cells i t h
    have he : exposedPorts dir cells i =
        (List.range i.arr.rows).flatMap fun row =>
          (List.range i.arr.columns).flatMap fun col =>
            t.ports.map fun p =>
              ((p.name, row, col), transformPort dir (effTrans i row col) p) := by
      simp [exposedPorts, h]
    rw [he, length_flatMap_const _ _ (i.arr.columns * t.ports.length)]
    · rw [List.length_range]
      ring
    · intro row _
      rw [length_flatMap_const _ _ t.ports.length]
      · rw [List.length_range]
      · intro col _
        exact List.length_map _ _
  · intro cells i t p row col h hrow hcol hp
    have he : exposedPorts dir cells i =
        (List.range i.arr.rows).flatMap fun row =>
          (List.range i.arr.columns).flatMap fun col =>
            t.ports.map fun p =>
              ((p.name, row, col), transformPort dir (effTrans i row col) p) := by
      simp [exposedPorts, h]
    rw [he]
    refine List.mem_flatMap.mpr ⟨row, List.mem_range.mpr hrow, ?_⟩
    refine List.mem_flatMap.mpr ⟨col, List.mem_range.mpr hcol, ?_⟩
    exact List.mem_map_of_mem _ hp
  · intro base
    refine ⟨?_, ?_, ?_, ?_, ?_⟩
    · simp [exposedPorts, arrCells, arrInst, portO1, List.range_succ]
    · simp [exposedLookup, exposedPorts, lookupC, arrCells, arrInst, portO1, List.range_succ,
        -Prod.mk_one_one]
    · rw [hpos]
      apply Vec2.ext_xy <;>
        simp [latticeOffset, arrInst, portO1, Vec2.add_def]
    · simp [exposedLookup, exposedPorts, lookupC, arrCells, arrInst, portO1, List.range_succ,
        -Prod.mk_one_one]
    · rw [hpos]
      apply Vec2.ext_xy <;>
        simp [latticeOffset, arrInst, portO1, Vec2.add_def]

theorem array_addressing_witness :
    (exposedPorts dir0 arrCells (arrInst T0)).length = 4 ∧
    exposedLookup dir0 arrCells (arrInst T0) ("o1", 1, 1) =
      some (transformPort dir0 (effTrans (arrInst T0) 1 1) portO1) ∧
    (transformPort dir0 (effTrans (arrInst T0) 1 1) portO1).pos =
      T0.apply dir0 ⟨0, 0⟩ + ⟨10, 20⟩ ∧
    exposedLookup dir0 arrCells (arrInst T0) ("o1", 0, 0) =
      some (transformPort dir0 (effTrans (arrInst T0) 0 0) portO1) ∧
    (transformPort dir0 (effTrans (arrInst T0) 0 0) portO1).pos =
      T0.apply dir0 ⟨0, 0⟩ :=
  (array_addressing dir0).2.2.2 T0

/-- C7: cycle rejection in the registry.  Requesting a key that is already
in progress fails immediately with the cyclic build error and leaves the
registry state untouched; whenever a top-level build of X fails — in
particular through a cyclic chain — no Cell is cached under X's key
(X was uncached before, and it stays uncached); and the concrete chain
X requests Y requests X fails with the cyclic build error with X's key
absent from the final cache. -/
theorem cyclic_build_rejection :
    (∀ (env : String → List String) (fuel : Nat) (k : String) (s : RState),
       lookupC k s.cache = none → k ∈ s.inProgress →
       gobR env fuel k s = (s, .error .cyclic)) ∧
    (∀ (env : String → List String) (fuel : Nat) (X : String) (s s' : RState)
       (e : BuildErr), lookupC X s.cache = none →
       gobR env fuel X s = (s', .error e) → lookupC X s'.cache = none) ∧
    (gobR envXY 2 "X" ⟨[], [], 0⟩ = (⟨[], ["Y", "X"], 0⟩, .error .cyclic) ∧
     lookupC "X" (gobR envXY 2 "X" ⟨[], [], 0⟩).1.cache = none) := by
  refine ⟨?_, ?_, ?_⟩
  · intro env fuel k s h1 h2
    cases fuel with
    | zero =>
      unfold gobR
      simp [h1, h2]
    | succ n =>
      unfold gobR
      simp [h1, h2]
  · intro env fuel X s s' e h1 hrun
    cases fuel with
    | zero =>
      unfold gobR at hrun
      simp only [h1] at hrun
      by_cases hk : X ∈ s.inProgress
      · simp only [hk, if_true, ite_true] at hrun
        injection hrun with ha hb
        subst ha
        exact h1
      · simp only [hk, if_false, ite_false] at hrun
        injection hrun with ha hb
        subst ha
        exact h1
    | succ n =>
      unfold gobR at hrun
      simp only [h1] at hrun
      by_cases hk : X ∈ s.inProgress
      · simp only [hk, if_true, ite_true] at hrun
        injection hrun with ha hb
        subst ha
        exact h1
      · simp only [hk, if_false, ite_false] at hrun
        have hrd := runDeps_preserves (gobR env n)
          (fun st => lookupC X st.cache = none ∧ X ∈ st.inProgress)
          (fun k2 s2 h => gobR_preserves env X n k2 s2 h.1 h.2) (env X)
          { s with inProgress := X :: s.inProgress }
          ⟨h1, List.mem_cons_self _ _⟩
        cases hrun2 : runDeps (gobR env n) (env X) { s with inProgress := X :: s.inProgress } with
        | mk s2 r =>
          rw [hrun2] at hrd hrun
          cases r with
          | error e2 =>
            injection hrun with ha hb
            subst ha
            exact hrd.1
          | ok v =>
            injection hrun with ha hb
            exact absurd hb (by simp)
  · constructor
    · rfl
    · rfl

theorem cyclic_build_rejection_witness :
    gobR envXY 5 "X" ⟨[], ["X"], 0⟩ = (⟨[], ["X"], 0⟩, .error .cyclic) ∧
    lookupC "X" (⟨[], ["X"], 0⟩ : RState).cache = none := by
  refine ⟨cyclic_build_rejection.1 envXY 5 "X" ⟨[], ["X"], 0⟩ rfl ?_, rfl⟩
  simp

/-- C8: the Port-Naming Engine is deterministic.  Renaming depends only on
the set of ports, not the order they are supplied in: for any two
presentations of the same ports (with distinct ordering keys) and for any
registered prefix policy the resulting assignment is identical — ports are
ordered along the clockwise bounding-box walk from the bottom-left corner,
grouped by type-derived prefix, and every assigned name is that prefix
followed by a sequential integer starting at 1 within the group. -/
theorem auto_rename_ports_deterministic (policy : List (String × String))
    (bb : Rect) (ps₁ ps₂ : List Port) (hperm : ps₁.Perm ps₂)
    (hnd : (ps₁.map (portKey bb)).Nodup) :
    autoRenamePorts policy bb ps₁ = autoRenamePorts policy bb ps₂ ∧
    (∀ (p : Port) (n : String), (p, n) ∈ autoRenamePorts policy bb ps₁ →
      ∃ k : Nat, 1 ≤ k ∧ n = prefixOf policy p.ptype ++ toString k) := by
  constructor
  · unfold autoRenamePorts
    rw [sortPorts_perm_invariant bb ps₁ ps₂ hperm hnd]
  · intro p n h
    exact assignNamesAux_shape policy _ _ p n h

theorem auto_rename_ports_deterministic_witness :
    autoRenamePorts polC8 bbC8 [pOpt, pElec] =
      autoRenamePorts polC8 bbC8 [pElec, pOpt] := by
  have h := auto_rename_ports_deterministic polC8 bbC8 [pOpt, pElec] [pElec, pOpt]
    (List.Perm.swap pElec pOpt []) (by decide)
  exact h.1

/-- C9: the Sequence Interpreter on the two-symbol string AB instantiates
cellA and then cellB, performs exactly one connect — aligning cellB's
in-port with cellA's out-port, coincident and antiparallel — and exposes
cellA's in-port and cellB's (transformed) out-port as the composite Cell's
own ports. -/
theorem sequence_interpreter (dir : ℚ → Vec2) (cells : List Cell)
    (cA cB : Cell) (pinA poutA pinB poutB : Port)
    (table : Char → Option (Nat × String × String))
    (hA : cells[0]? = some cA) (hB : cells[1]? = some cB)
    (htA : table 'A' = some (0, "in", "out"))
    (htB : table 'B' = some (1, "in", "out"))
    (hfA1 : findPort cA "in" = some pinA) (hfA2 : findPort cA "out" = some poutA)
    (hfB1 : findPort cB "in" = some pinB) (hfB2 : findPort cB "out" = some poutB)
    (hw : pinB.width = poutA.width) (hdir0 : dir 0 = ⟨1, 0⟩) :
    ∃ (comp : Cell) (t : Transform),
      componentSequence dir cells ['A', 'B'] table = .ok (comp, 1) ∧
      connectT dir pinB (transformPort dir idT poutA) false = .ok t ∧
      comp.insts = [⟨0, idT, unitArr⟩, ⟨1, t, unitArr⟩] ∧
      comp.ports = [transformPort dir idT pinA, transformPort dir t poutB] ∧
      (transformPort dir idT pinA).pos = pinA.pos ∧
      (transformPort dir t pinB).pos = poutA.pos ∧
      (transformPort dir t pinB).orientation = normDeg (poutA.orientation + 180) := by
  have hwt : pinB.width = (transformPort dir idT poutA).width := by
    simpa [transformPort] using hw
  obtain ⟨t, het, hmir, hposT, horT⟩ :=
    connectT_ok_spec dir pinB (transformPort dir idT poutA) false (Or.inl hwt)
  have hid : ∀ p : Port, (transformPort dir idT p).pos = p.pos := by
    intro p
    apply Vec2.ext_xy <;>
      simp [transformPort, Transform.apply, idT, mirVec, rotVec, hdir0]
  have hseq : componentSequence dir cells ['A', 'B'] table =
      .ok (⟨"sequence", [],
            [transformPort dir idT pinA, transformPort dir t poutB],
            [⟨0, idT, unitArr⟩, ⟨1, t, unitArr⟩]⟩, 1) := by
    simp [componentSequence, seqGo, htA, htB, hA, hB, hfA1, hfA2, hfB1, hfB2, het]
  refine ⟨_, t, hseq, het, rfl, rfl, hid pinA, ?_, ?_⟩
  · rw [hposT, hid poutA]
  · rw [horT]
    have hori : (transformPort dir idT poutA).orientation =
        normDeg (0 + poutA.orientation) := by
      simp [transformPort, idT]
    rw [hori, normDeg_add_left]
    congr 1
    ring

theorem sequence_interpreter_witness :
    ∃ (comp : Cell) (t : Transform),
      componentSequence dir0 seqCells ['A', 'B'] seqTable =
        .ok (comp, 1) ∧
      connectT dir0 pInA (transformPort dir0 idT pOutA) false = .ok t ∧
      comp.insts = [⟨0, idT, unitArr⟩, ⟨1, t, unitArr⟩] := by
  obtain ⟨comp, t, h1, h2, h3, -⟩ :=
    sequence_interpreter dir0 seqCells cellA cellB pInA pOutA pInA pOutA seqTable
      rfl rfl rfl rfl rfl rfl rfl rfl rfl rfl
  exact ⟨comp, t, h1, h2, h3⟩

end GdsKernel
